import Mathlib

/-!
Shallow embedding of the iroh-bytes provider database
(src/iroh-bytes/src/provider/database.rs).

Modelling conventions:
- Hash (a 32-byte identifier, totally ordered) is modelled as Nat.
- Bytes (byte buffers) are modelled as List Nat.
- PathBuf (byte strings under lexicographic order) is modelled as Nat;
  the claims only use that paths carry a decidable total order.
- HashMap and BTreeMap values are modelled as association lists where an
  insert conses the new binding to the front and lookup takes the first
  match, which reproduces the overwrite-on-insert semantics.  Iteration
  over an unordered map is modelled by quantifying over the list order.
- Fallible iterator elements are Except values; fs access is modelled by
  an explicit Dir structure holding the three parts of the store root.
-/

abbrev Hash := Nat
abbrev Bytes := List Nat
abbrev FsPath := Nat

/-- The DbEntry variant from the provider module.  Its two variants and
their fields are exactly those constructed and matched in database.rs
(from_snapshot, snapshot, validate0). -/
inductive DbEntry : Type
  | External (outboard : Bytes) (path : FsPath) (size : Nat)
  | Internal (outboard : Bytes) (data : Bytes)
deriving DecidableEq, Repr

namespace DbEntry

/-- The outboard of an entry, as matched in Database.snapshot. -/
def outboard : DbEntry → Bytes
  | .External ob _ _ => ob
  | .Internal ob _ => ob

/-- Modelled from the spec: DbEntry.is_external is declared in the
provider module, outside this file tree.  The spec describes roots as
the non-External entries and the code filters them with a negated
is_external, so is_external holds exactly on the External variant. -/
def isExternal : DbEntry → Bool
  | .External _ _ _ => true
  | .Internal _ _ => false

/-- Modelled from the spec: DbEntry.blob_path is declared in the provider
module, outside this file tree.  validate0 itself computes the same
value inline (Some path for External, None for Internal), which fixes
the meaning. -/
def blobPath : DbEntry → Option FsPath
  | .External _ p _ => some p
  | .Internal _ _ => none

/-- Modelled from the spec: DbEntry.size is declared in the provider
module, outside this file tree.  The spec says an External entry carries
the declared byte length of its file, and snapshot uses the buffer
length for Internal entries. -/
def entrySize : DbEntry → Nat
  | .External _ _ sz => sz
  | .Internal _ d => d.length

/-- The data of an Internal entry, none for External entries. -/
def internalData : DbEntry → Option Bytes
  | .External _ _ _ => none
  | .Internal _ d => some d

end DbEntry

/-- The inner map of a Database: hash to entry, as an association list. -/
abbrev DbMap := List (Hash × DbEntry)

/-- Write a file into a directory modelled as an association list of
(name, content): overwrite the content if the name exists, otherwise
append a new file.  Filenames stay unique. -/
def fsWrite {β : Type} : List (Hash × β) → Hash → β → List (Hash × β)
  | [], h, b => [(h, b)]
  | (k, v) :: fs, h, b => if k = h then (k, b) :: fs else (k, v) :: fsWrite fs h b

/-- Collect a list of pairs into a map by inserting each in order, the
way HashMap collect does: a later binding overwrites an earlier one.
The result lists each key once, keyed order by first occurrence. -/
def collectMap {β : Type} (l : List (Hash × β)) : List (Hash × β) :=
  l.foldl (fun m kv => fsWrite m kv.1 kv.2) []

/-- Collect a list of fallible elements, stopping at the first error,
the way collecting an iterator of Results does. -/
def collectE {ε α : Type} : List (Except ε α) → Except ε (List α)
  | [] => .ok []
  | .error e :: _ => .error e
  | .ok a :: rest => (collectE rest).map (a :: ·)

/-! ### InMemDatabase -/

/-- The in-memory store: hash to (outboard, data).  The bao_tree outboard
computation is an external library; it is passed in as the abstract
function bao, returning (outboard bytes, root hash) for a buffer. -/
structure InMemDatabase : Type where
  entries : List (Hash × (Bytes × Bytes))
deriving DecidableEq, Repr

namespace InMemDatabase

/-- InMemDatabase.new: fold the named buffers, computing outboard and
hash for each, recording the name in the names map and the entry in the
store.  Both maps insert with overwrite (front cons, first-match
lookup). -/
def new (bao : Bytes → Bytes × Hash) (l : List (String × Bytes)) :
    InMemDatabase × List (String × Hash) :=
  l.foldl
    (fun (acc : InMemDatabase × List (String × Hash)) nb =>
      (⟨((bao nb.2).2, ((bao nb.2).1, nb.2)) :: acc.1.entries⟩,
        (nb.1, (bao nb.2).2) :: acc.2))
    (⟨[]⟩, [])

/-- InMemDatabase.insert: compute outboard and hash, add the entry,
return the hash. -/
def insert (bao : Bytes → Bytes × Hash) (db : InMemDatabase) (data : Bytes) :
    InMemDatabase × Hash :=
  (⟨((bao data).2, ((bao data).1, data)) :: db.entries⟩, (bao data).2)

/-- InMemDatabase.get: return the raw data buffer for a hash. -/
def get (db : InMemDatabase) (h : Hash) : Option Bytes :=
  (db.entries.lookup h).map (·.2)

/-- roots for InMemDatabase: the code returns an empty iterator. -/
def roots (_db : InMemDatabase) : List Hash := []

/-- validate for InMemDatabase: the code ignores the database and the
progress channel and immediately returns Ok(()).  Modelled as the
result together with the list of progress messages sent (none). -/
def validateResult (_db : InMemDatabase) : Except String Unit × List Hash :=
  (.ok (), [])

end InMemDatabase

/-! ### Snapshot, persistence, load, reconciliation -/

/-- A snapshot: the three materialized single-pass sequences. -/
structure SnapshotT (ε : Type) : Type where
  paths : List (Hash × Nat × Option FsPath)
  outboards : List (Except ε (Hash × Bytes))
  collections : List (Except ε (Hash × Bytes))

/-- Database.snapshot over a given iteration order of the inner map. -/
def Database.snapshot (db : DbMap) (ε : Type) : SnapshotT ε where
  paths := db.map (fun kv => match kv.2 with
    | .External _ p sz => (kv.1, sz, some p)
    | .Internal _ d => (kv.1, d.length, none))
  outboards := (db.map (fun kv => (kv.1, kv.2.outboard))).map .ok
  collections := (db.filterMap (fun kv =>
    (kv.2.internalData).map (fun d => (kv.1, d)))).map .ok

/-- The store root directory: outboards dir, collections dir (files
named by the hex hash, modelled as keyed by the hash itself), and the
optional paths file holding the deserialized list. -/
structure Dir : Type where
  outboards : List (Hash × Bytes)
  collections : List (Hash × Bytes)
  pathsFile : Option (List (Hash × Nat × Option FsPath))
deriving DecidableEq, Repr

def Dir.empty : Dir := ⟨[], [], none⟩

/-- One filesystem write performed by Snapshot.persist. -/
inductive WriteEv : Type
  | wOutboard (h : Hash) (b : Bytes)
  | wCollection (h : Hash) (b : Bytes)
  | wPaths (ps : List (Hash × Nat × Option FsPath))
deriving DecidableEq, Repr

/-- The paths list sorted ascending by hash (sort_by_key on the first
tuple component; a stable comparison sort). -/
def sortPathsByHash (ps : List (Hash × Nat × Option FsPath)) :
    List (Hash × Nat × Option FsPath) :=
  List.insertionSort (fun a b => a.1 ≤ b.1) ps

/-- Snapshot.persist as its sequence of filesystem writes: all outboard
files, then all collection files, then the paths file holding the list
sorted by hash.  An error element aborts with that error. -/
def Snapshot.persistEvents {ε : Type} (s : SnapshotT ε) : Except ε (List WriteEv) := do
  let obs ← collectE s.outboards
  let cols ← collectE s.collections
  pure (obs.map (fun hb => WriteEv.wOutboard hb.1 hb.2)
    ++ cols.map (fun hb => WriteEv.wCollection hb.1 hb.2)
    ++ [WriteEv.wPaths (sortPathsByHash s.paths)])

/-- Apply one write to the directory. -/
def Dir.applyEv (d : Dir) : WriteEv → Dir
  | .wOutboard h b => { d with outboards := fsWrite d.outboards h b }
  | .wCollection h b => { d with collections := fsWrite d.collections h b }
  | .wPaths ps => { d with pathsFile := some ps }

/-- Snapshot.persist: the directory after performing all writes. -/
def Snapshot.persist {ε : Type} (s : SnapshotT ε) (d : Dir) : Except ε Dir :=
  (Snapshot.persistEvents s).map (fun evs => evs.foldl Dir.applyEv d)

inductive LoadErr : Type
  | missingPathsFile
deriving DecidableEq, Repr

inductive IoErr : Type
  | fileNotFound (h : Hash)
deriving DecidableEq, Repr

/-- The BTreeSet of hashes of the paths list: sorted, deduplicated. -/
def hashSet (ps : List (Hash × Nat × Option FsPath)) : List Hash :=
  (List.insertionSort (· ≤ ·) (ps.map (·.1))).dedup

/-- Snapshot.load: read and deserialize the paths file (its absence is
an error), derive the hash set; the outboard sequence reads one file per
hash (a missing file is an error element, surfaced later); the
collection sequence scans the collections directory, skipping hashes
not in the hash set. -/
def Snapshot.load (d : Dir) : Except LoadErr (SnapshotT IoErr) :=
  match d.pathsFile with
  | none => .error .missingPathsFile
  | some paths =>
    let hashes := hashSet paths
    .ok {
      paths := paths
      outboards := hashes.map (fun h => match d.outboards.lookup h with
        | some b => .ok (h, b)
        | none => .error (.fileNotFound h))
      collections := (d.collections.filter (fun hb =>
        decide (hb.1 ∈ hashes))).map .ok }

inductive FromSnapErr (ε : Type) : Type
  | outboards (e : ε)
  | collections (e : ε)
deriving DecidableEq, Repr

/-- Database.from_snapshot: collect the outboard and collection
sequences (any error element aborts with context); then insert an
External entry for every paths element with a present path and a known
outboard; then insert an Internal entry for every collected collection
with a known outboard. -/
def Database.fromSnapshot {ε : Type} (s : SnapshotT ε) : Except (FromSnapErr ε) DbMap := do
  let obs ← (collectE s.outboards).mapError FromSnapErr.outboards
  let cols ← (collectE s.collections).mapError FromSnapErr.collections
  let obMap := collectMap obs
  let colMap := collectMap cols
  let db1 := s.paths.foldl
    (fun (db : DbMap) p =>
      match p.2.2, obMap.lookup p.1 with
      | some path, some ob => (p.1, DbEntry.External ob path p.2.1) :: db
      | _, _ => db) []
  let db2 := colMap.foldl
    (fun (db : DbMap) hd =>
      match obMap.lookup hd.1 with
      | some ob => (hd.1, DbEntry.Internal ob hd.2) :: db
      | none => db) db1
  pure db2

/-- Database.get on the inner map. -/
def Database.get (db : DbMap) (h : Hash) : Option DbEntry := db.lookup h

/-- Database.union_with: insert every binding whose key is absent; an
existing binding is never replaced. -/
def Database.unionWith (db : DbMap) (other : DbMap) : DbMap :=
  other.foldl (fun m kv => if (m.lookup kv.1).isSome then m else kv :: m) db

inductive RoundTripErr : Type
  | persistE (e : Empty)
  | loadE (e : LoadErr)
  | fromSnapE (e : FromSnapErr IoErr)

/-- save_test followed by load_test into a fresh directory: snapshot,
persist, load, from_snapshot. -/
def Database.roundTrip (db : DbMap) : Except RoundTripErr DbMap := do
  let dir ← (Snapshot.persist (Database.snapshot db Empty) Dir.empty).mapError .persistE
  let s ← (Snapshot.load dir).mapError .loadE
  (Database.fromSnapshot s).mapError .fromSnapE

/-- The lookup in the round-tripped database, for concrete evaluation. -/
def Database.roundTripLookup (db : DbMap) (h : Hash) : Option DbEntry :=
  match Database.roundTrip db with
  | .ok m => m.lookup h
  | .error _ => none

/-! ### Validation sweep model -/

/-- The sort key used by validate0: (is_external, blob_path, hash) under
the derived lexicographic order.  Booleans order false before true and
options order none before some; both are encoded into Nat components:
is_external as 0 or 1, blob_path as a (tag, value) pair with tag 0 for
none and 1 for some. -/
def sortKey (kv : Hash × DbEntry) : Nat × Nat × Nat × Nat :=
  match kv.2 with
  | .External _ p _ => (1, 1, p, kv.1)
  | .Internal _ _ => (0, 0, 0, kv.1)

/-- Lexicographic comparison of the four Nat components. -/
def lexLe4 (a b : Nat × Nat × Nat × Nat) : Prop :=
  a.1 < b.1 ∨ a.1 = b.1 ∧ (a.2.1 < b.2.1 ∨ a.2.1 = b.2.1 ∧
    (a.2.2.1 < b.2.2.1 ∨ a.2.2.1 = b.2.2.1 ∧ a.2.2.2 ≤ b.2.2.2))

instance lexLe4.decRel : DecidableRel lexLe4 := fun _ _ => by
  unfold lexLe4; infer_instance

/-- The entry order used by the validate0 sort. -/
def entryLE (a b : Hash × DbEntry) : Prop := lexLe4 (sortKey a) (sortKey b)

instance entryLE.decRel : DecidableRel entryLE := fun _ _ => by
  unfold entryLE; infer_instance

instance lexLe4.total : IsTotal (Nat × Nat × Nat × Nat) lexLe4 :=
  ⟨by intro a b; unfold lexLe4; omega⟩

instance lexLe4.trans : IsTrans (Nat × Nat × Nat × Nat) lexLe4 :=
  ⟨by intro a b c; unfold lexLe4; omega⟩

instance entryLE.total : IsTotal (Hash × DbEntry) entryLE :=
  ⟨fun a b => lexLe4.total.total (sortKey a) (sortKey b)⟩

instance entryLE.trans : IsTrans (Hash × DbEntry) entryLE :=
  ⟨fun _ _ _ hab hbc => lexLe4.trans.trans _ _ _ hab hbc⟩

/-- The deterministic sort performed by validate0 on the snapshot copy
of the index before assigning ids. -/
def sortEntries (db : DbMap) : DbMap := List.insertionSort entryLE db

/-- Pair each element with its position, starting at k: the enumerate
step of validate0. -/
def withIds {α : Type} : Nat → List α → List (Nat × α)
  | _, [] => []
  | k, x :: xs => (k, x) :: withIds (k + 1) xs

/-- The progress messages of the validation sweep. -/
inductive Msg : Type
  | starting (total : Nat)
  | entry (id : Nat) (h : Hash) (path : Option FsPath) (size : Nat)
  | progress (id : Nat) (offset : Nat)
  | done (id : Nat) (error : Option String)
deriving DecidableEq, Repr

def Msg.isStarting : Msg → Bool
  | .starting _ => true
  | _ => false

def Msg.isEntryFor (id : Nat) : Msg → Bool
  | .entry j _ _ _ => j == id
  | _ => false

def Msg.isProgressFor (id : Nat) : Msg → Bool
  | .progress j _ => j == id
  | _ => false

def Msg.isDoneFor (id : Nat) : Msg → Bool
  | .done j _ => j == id
  | _ => false

/-- The sequence of messages one entry task sends, in program order:
the Entry message, then the best-effort Progress messages that were
actually delivered (an arbitrary list of offsets), then the Done
message with the validation outcome. -/
def entryQueue (progs : Nat → List Nat) (errs : Nat → Option String)
    (p : Nat × (Hash × DbEntry)) : List Msg :=
  Msg.entry p.1 p.2.1 p.2.2.blobPath p.2.2.entrySize
    :: ((progs p.1).map (Msg.progress p.1) ++ [Msg.done p.1 (errs p.1)])

/-- The per-entry message queues of one validation sweep: the snapshot
copy is sorted, enumerated from 0, and each entry yields its queue. -/
def validateQueues (db : DbMap) (progs : Nat → List Nat)
    (errs : Nat → Option String) : List (List Msg) :=
  (withIds 0 (sortEntries db)).map (entryQueue progs errs)

/-- Run the message queues under a schedule: at each step the schedule
names a queue, whose first pending message is emitted; an index naming
an exhausted or absent queue is skipped.  When the schedule ends, the
remaining messages drain in queue order.  Quantifying over schedules
captures every interleaving the bounded-concurrency runtime can
produce, for a sweep that runs to completion. -/
def runSched {α : Type} : List Nat → List (List α) → List α
  | [], qs => qs.flatten
  | i :: sched, qs =>
    match qs[i]? with
    | some (x :: rest) => x :: runSched sched (qs.set i rest)
    | _ => runSched sched qs

/-- One complete validation sweep trace: the Starting message with the
total count, then an interleaving of the per-entry queues. -/
def validateTrace (db : DbMap) (progs : Nat → List Nat)
    (errs : Nat → Option String) (sched : List Nat) : List Msg :=
  Msg.starting (sortEntries db).length :: runSched sched (validateQueues db progs errs)

/-! ### Association list lemmas -/

theorem lookup_cons {κ β : Type} [BEq κ] [LawfulBEq κ] [DecidableEq κ]
    (k : κ) (v : β) (l : List (κ × β)) (a : κ) :
    List.lookup a ((k, v) :: l) = if a = k then some v else List.lookup a l := by
  simp only [List.lookup]
  by_cases h : a = k
  · have hb : (a == k) = true := by simpa using h
    simp [hb, h]
  · have hb : (a == k) = false := by simpa using h
    simp [hb, h]

theorem lookup_fsWrite {β : Type} (fs : List (Hash × β)) (h : Hash) (b : β) (a : Hash) :
    List.lookup a (fsWrite fs h b) = if a = h then some b else List.lookup a fs := by
  induction fs with
  | nil => simp [fsWrite, lookup_cons]
  | cons kv fs ih =>
    obtain ⟨k, v⟩ := kv
    simp only [fsWrite]
    by_cases hk : k = h
    · subst hk
      by_cases ha : a = k <;> simp [lookup_cons, ha]
    · rw [if_neg hk]
      by_cases ha : a = k
      · rw [lookup_cons, if_pos ha, lookup_cons, if_pos ha,
            if_neg (fun hc => hk (ha.symm.trans hc))]
      · rw [lookup_cons, if_neg ha, ih, lookup_cons, if_neg ha]

theorem lookup_isSome_iff {β : Type} (l : List (Hash × β)) (a : Hash) :
    (List.lookup a l).isSome = true ↔ a ∈ l.map Prod.fst := by
  induction l with
  | nil => simp [List.lookup]
  | cons kv l ih =>
    obtain ⟨k, v⟩ := kv
    by_cases ha : a = k <;> simp [lookup_cons, ha, ih]

theorem lookup_eq_none_iff {β : Type} (l : List (Hash × β)) (a : Hash) :
    List.lookup a l = none ↔ a ∉ l.map Prod.fst := by
  rw [← lookup_isSome_iff]
  cases List.lookup a l <;> simp

theorem lookup_map_value {β γ : Type} (f : β → γ) (l : List (Hash × β)) (a : Hash) :
    List.lookup a (l.map (fun kv => (kv.1, f kv.2))) = (List.lookup a l).map f := by
  induction l with
  | nil => simp [List.lookup]
  | cons kv l ih =>
    obtain ⟨k, v⟩ := kv
    by_cases ha : a = k <;> simp [lookup_cons, ha, ih]

theorem filterMap_keys_subset {β γ : Type} (g : β → Option γ) (l : List (Hash × β)) :
    ((l.filterMap (fun kv => (g kv.2).map (fun v => (kv.1, v)))).map Prod.fst) ⊆
      l.map Prod.fst := by
  intro a ha
  simp only [List.mem_map, List.mem_filterMap] at ha
  obtain ⟨kv, ⟨src, hsrc, heq⟩, rfl⟩ := ha
  cases hg : g src.2 with
  | none => rw [hg, Option.map_none'] at heq; cases heq
  | some w =>
    rw [hg, Option.map_some'] at heq
    obtain rfl := Option.some.inj heq
    exact List.mem_map.mpr ⟨src, hsrc, rfl⟩

theorem lookup_filterMap_nodup {β γ : Type} (g : β → Option γ) (l : List (Hash × β))
    (hnd : (l.map Prod.fst).Nodup) (a : Hash) :
    List.lookup a (l.filterMap (fun kv => (g kv.2).map (fun v => (kv.1, v)))) =
      (List.lookup a l).bind g := by
  induction l with
  | nil => simp [List.lookup]
  | cons kv l ih =>
    obtain ⟨k, v⟩ := kv
    simp only [List.map_cons, List.nodup_cons] at hnd
    obtain ⟨hk, hnd⟩ := hnd
    cases hg : g v with
    | none =>
      have hstep : ((k, v) :: l).filterMap (fun kv => (g kv.2).map (fun v => (kv.1, v))) =
          l.filterMap (fun kv => (g kv.2).map (fun v => (kv.1, v))) := by
        simp [List.filterMap_cons, hg]
      by_cases ha : a = k
      · subst ha
        simp [hstep, ih hnd, lookup_cons, (lookup_eq_none_iff l a).mpr hk, hg]
      · simp [hstep, ih hnd, lookup_cons, ha]
    | some w =>
      have hstep : ((k, v) :: l).filterMap (fun kv => (g kv.2).map (fun v => (kv.1, v))) =
          (k, w) :: l.filterMap (fun kv => (g kv.2).map (fun v => (kv.1, v))) := by
        simp [List.filterMap_cons, hg]
      by_cases ha : a = k
      · subst ha
        simp [hstep, lookup_cons, hg]
      · simp [hstep, lookup_cons, ha, ih hnd]

theorem lookup_filter_key {β : Type} (p : Hash → Bool) (l : List (Hash × β))
    (hnd : (l.map Prod.fst).Nodup) (a : Hash) :
    List.lookup a (l.filter (fun kv => p kv.1)) =
      if p a then List.lookup a l else none := by
  induction l with
  | nil => simp [List.lookup]
  | cons kv l ih =>
    obtain ⟨k, v⟩ := kv
    simp only [List.map_cons, List.nodup_cons] at hnd
    obtain ⟨hk, hnd⟩ := hnd
    by_cases hp : p k
    · have hstep : ((k, v) :: l).filter (fun kv => p kv.1) =
          (k, v) :: l.filter (fun kv => p kv.1) := by
        simp [List.filter_cons, hp]
      by_cases ha : a = k
      · subst ha
        simp [hstep, lookup_cons, hp]
      · simp [hstep, lookup_cons, ha, ih hnd]
    · have hstep : ((k, v) :: l).filter (fun kv => p kv.1) =
          l.filter (fun kv => p kv.1) := by
        simp [List.filter_cons, hp]
      by_cases ha : a = k
      · subst ha
        rw [hstep, ih hnd, lookup_cons, if_pos rfl]
        rw [(lookup_eq_none_iff l a).mpr hk]
        simp [hp]
      · rw [hstep, ih hnd, lookup_cons, if_neg ha]

theorem collectE_map_ok {ε α : Type} (l : List α) :
    collectE (ε := ε) (l.map .ok) = .ok l := by
  induction l with
  | nil => rfl
  | cons a l ih => simp [collectE, ih, Except.map]

theorem collectE_error_of_mem {ε α : Type} (l : List (Except ε α)) (e : ε)
    (hm : .error e ∈ l) : ∃ e0, collectE l = .error e0 := by
  induction l with
  | nil => cases hm
  | cons x l ih =>
    cases x with
    | error e1 => exact ⟨e1, rfl⟩
    | ok a =>
      rcases List.mem_cons.mp hm with hx | hx
      · cases hx
      · obtain ⟨e0, he0⟩ := ih hx
        exact ⟨e0, by simp [collectE, he0, Except.map]⟩

theorem fsWrite_not_mem {β : Type} (fs : List (Hash × β)) (h : Hash) (b : β)
    (hh : h ∉ fs.map Prod.fst) : fsWrite fs h b = fs ++ [(h, b)] := by
  induction fs with
  | nil => rfl
  | cons kv fs ih =>
    obtain ⟨k, v⟩ := kv
    simp only [List.map_cons, List.mem_cons] at hh
    push_neg at hh
    simp only [fsWrite, if_neg (Ne.symm hh.1)]
    rw [ih hh.2]
    simp

theorem collectMap_go_nodup {β : Type} (l acc : List (Hash × β))
    (hnd : (l.map Prod.fst).Nodup)
    (hdisj : ∀ a ∈ l.map Prod.fst, a ∉ acc.map Prod.fst) :
    l.foldl (fun m kv => fsWrite m kv.1 kv.2) acc = acc ++ l := by
  induction l generalizing acc with
  | nil => simp
  | cons kv l ih =>
    obtain ⟨k, v⟩ := kv
    simp only [List.map_cons, List.nodup_cons] at hnd
    simp only [List.foldl_cons]
    rw [fsWrite_not_mem acc k v (hdisj k (by simp))]
    rw [ih (acc ++ [(k, v)]) hnd.2]
    · simp
    · intro a ha
      simp only [List.map_append, List.mem_append] at *
      rintro (hc | hc)
      · exact hdisj a (by simp [ha]) hc
      · simp at hc
        subst hc
        exact hnd.1 ha

theorem collectMap_nodup {β : Type} (l : List (Hash × β))
    (hnd : (l.map Prod.fst).Nodup) : collectMap l = l := by
  have := collectMap_go_nodup l [] hnd (by simp)
  simpa [collectMap] using this

/-- First-some choice on options. -/
def optOr {α : Type} : Option α → Option α → Option α
  | some a, _ => some a
  | none, b => b

theorem foldInsert_lookup {τ : Type} (f : Hash × τ → Option DbEntry)
    (l : List (Hash × τ)) (hnd : (l.map Prod.fst).Nodup) (acc : DbMap) (a : Hash) :
    List.lookup a (l.foldl (fun db kv => match f kv with
      | some e => (kv.1, e) :: db
      | none => db) acc)
    = optOr ((List.lookup a l).bind (fun t => f (a, t))) (List.lookup a acc) := by
  induction l generalizing acc with
  | nil => simp [List.lookup, optOr]
  | cons kv l ih =>
    obtain ⟨k, t⟩ := kv
    simp only [List.map_cons, List.nodup_cons] at hnd
    obtain ⟨hk, hnd⟩ := hnd
    simp only [List.foldl_cons]
    rw [ih hnd]
    by_cases ha : a = k
    · subst ha
      rw [(lookup_eq_none_iff l a).mpr hk, lookup_cons, if_pos rfl, Option.some_bind,
          Option.none_bind]
      cases hf : f (a, t) with
      | some e => simp [optOr, lookup_cons, hf]
      | none => simp [optOr, lookup_cons, hf]
    · rw [lookup_cons, if_neg ha]
      cases hf : f (k, t) with
      | some e => simp [optOr, lookup_cons, hf, ha]
      | none => simp [optOr, hf]

/-- The success path of from_snapshot on fully collected sequences. -/
def reconcile (paths : List (Hash × Nat × Option FsPath))
    (obs cols : List (Hash × Bytes)) : DbMap :=
  match Database.fromSnapshot (ε := Unit) ⟨paths, obs.map .ok, cols.map .ok⟩ with
  | .ok db => db
  | .error _ => []

theorem fromSnapshot_ok {ε : Type} (paths : List (Hash × Nat × Option FsPath))
    (obs cols : List (Hash × Bytes)) :
    Database.fromSnapshot (ε := ε) ⟨paths, obs.map .ok, cols.map .ok⟩ =
      .ok (reconcile paths obs cols) := by
  simp [Database.fromSnapshot, reconcile, collectE_map_ok, Except.mapError,
    Bind.bind, Except.bind, Pure.pure, Except.pure]

theorem reconcile_lookup (paths : List (Hash × Nat × Option FsPath))
    (obs cols : List (Hash × Bytes))
    (hndP : (paths.map Prod.fst).Nodup)
    (hndO : (obs.map Prod.fst).Nodup)
    (hndC : (cols.map Prod.fst).Nodup) (a : Hash) :
    List.lookup a (reconcile paths obs cols) =
      optOr
        ((List.lookup a cols).bind (fun d =>
          (List.lookup a obs).map (fun ob => DbEntry.Internal ob d)))
        ((List.lookup a paths).bind (fun t =>
          match t.2, List.lookup a obs with
          | some p, some ob => some (DbEntry.External ob p t.1)
          | _, _ => none)) := by
  have hrec : reconcile paths obs cols =
      (collectMap cols).foldl
        (fun db hd => match (collectMap obs).lookup hd.1 with
          | some ob => (hd.1, DbEntry.Internal ob hd.2) :: db
          | none => db)
        (paths.foldl
          (fun db p => match p.2.2, (collectMap obs).lookup p.1 with
            | some path, some ob => (p.1, DbEntry.External ob path p.2.1) :: db
            | _, _ => db) []) := by
    simp [reconcile, Database.fromSnapshot, collectE_map_ok, Except.mapError,
      Bind.bind, Except.bind, Pure.pure, Except.pure]
  rw [hrec, collectMap_nodup obs hndO, collectMap_nodup cols hndC]
  have hstep2 : (fun (db : DbMap) (hd : Hash × Bytes) =>
      match obs.lookup hd.1 with
      | some ob => (hd.1, DbEntry.Internal ob hd.2) :: db
      | none => db) =
      (fun db hd => match (fun hd2 : Hash × Bytes =>
          (obs.lookup hd2.1).map (fun ob => DbEntry.Internal ob hd2.2)) hd with
        | some e => (hd.1, e) :: db
        | none => db) := by
    funext db hd
    rcases hlk : obs.lookup hd.1 with _ | ob <;> simp [hlk]
  have hstep1 : (fun (db : DbMap) (p : Hash × Nat × Option FsPath) =>
      match p.2.2, obs.lookup p.1 with
      | some path, some ob => (p.1, DbEntry.External ob path p.2.1) :: db
      | _, _ => db) =
      (fun db p => match (fun q : Hash × Nat × Option FsPath =>
          match q.2.2, obs.lookup q.1 with
          | some path, some ob => some (DbEntry.External ob path q.2.1)
          | _, _ => none) p with
        | some e => (p.1, e) :: db
        | none => db) := by
    funext db p
    rcases p with ⟨k, sz, po⟩
    rcases hlk : obs.lookup k with _ | ob <;> rcases po with _ | pp <;> simp [hlk]
  rw [hstep2, hstep1]
  rw [foldInsert_lookup _ cols hndC _ a, foldInsert_lookup _ paths hndP _ a]
  rcases hc : List.lookup a cols with _ | d <;>
    rcases ho : List.lookup a obs with _ | ob <;>
    rcases hp : List.lookup a paths with _ | ⟨sz, _ | p⟩ <;>
    simp [hc, ho, hp, optOr, List.lookup]

/-! ### Claim theorems -/

def exceptIsOk {ε α : Type} : Except ε α → Bool
  | .ok _ => true
  | .error _ => false

/-- The entry stored for a hash after reconciling a snapshot, none when
reconciliation fails; used for concrete evaluation. -/
def fromSnapshotLookup (s : SnapshotT Unit) (a : Hash) : Option DbEntry :=
  match Database.fromSnapshot s with
  | .ok m => List.lookup a m
  | .error _ => none

/-- Claim C2 counterexample: for the snapshot with paths element
(hash 7, size 5, path 3), an outboard for 7 and a collection buffer for
7, the claim says an External entry is inserted (path and outboard both
present), but from_snapshot stores an Internal entry at 7: the second
loop runs over the collection map and overwrites the External entry. -/
theorem fromSnapshot_external_claim_false :
    fromSnapshotLookup ⟨[(7, 5, some 3)], [.ok (7, [1])], [.ok (7, [9])]⟩ 7 =
        some (DbEntry.Internal [1] [9]) ∧
      fromSnapshotLookup ⟨[(7, 5, some 3)], [.ok (7, [1])], [.ok (7, [9])]⟩ 7 ≠
        some (DbEntry.External [1] 3 5) := by
  constructor
  · rfl
  · decide

/-- Claim C2 (amended): on a snapshot whose sequences are fully readable
and duplicate-free, from_snapshot succeeds, and the resulting entry for
each hash is: an Internal entry whenever both a collection buffer and an
outboard exist for that hash (this overwrites any External entry for the
same hash, and needs no paths element); otherwise an External entry
whenever some paths element for that hash has a present path and an
outboard exists; otherwise nothing.  Paths elements whose outboard is
missing, or whose path is absent, are silently dropped. -/
theorem fromSnapshot_insertion_characterization {ε : Type}
    (paths : List (Hash × Nat × Option FsPath)) (obs cols : List (Hash × Bytes))
    (hndP : (paths.map Prod.fst).Nodup)
    (hndO : (obs.map Prod.fst).Nodup)
    (hndC : (cols.map Prod.fst).Nodup) :
    Database.fromSnapshot (ε := ε) ⟨paths, obs.map .ok, cols.map .ok⟩ =
        .ok (reconcile paths obs cols) ∧
      ∀ a, List.lookup a (reconcile paths obs cols) =
        optOr
          ((List.lookup a cols).bind (fun d =>
            (List.lookup a obs).map (fun ob => DbEntry.Internal ob d)))
          ((List.lookup a paths).bind (fun t =>
            match t.2, List.lookup a obs with
            | some p, some ob => some (DbEntry.External ob p t.1)
            | _, _ => none)) :=
  ⟨fromSnapshot_ok paths obs cols,
   fun a => reconcile_lookup paths obs cols hndP hndO hndC a⟩

theorem fromSnapshot_insertion_characterization_witness :
    (([(7, 5, some 3)].map (Prod.fst (β := Nat × Option FsPath))).Nodup ∧
        ([(7, [1])].map (Prod.fst (β := Bytes))).Nodup ∧
        ([(7, [9])].map (Prod.fst (β := Bytes))).Nodup) ∧
      List.lookup 7 (reconcile [(7, 5, some 3)] [(7, [1])] [(7, [9])]) =
        some (DbEntry.Internal [1] [9]) := by
  refine ⟨⟨by decide, by decide, by decide⟩, ?_⟩
  have h := (fromSnapshot_insertion_characterization (ε := Unit)
    [(7, 5, some 3)] [(7, [1])] [(7, [9])]
    (by decide) (by decide) (by decide)).2 7
  rw [h]
  decide

/-- Claim C4 counterexample: loading a store root with no paths file
does not succeed with an empty store; it fails with the error for the
missing paths file. -/
theorem load_missing_paths_fails :
    Snapshot.load Dir.empty = .error LoadErr.missingPathsFile := rfl

/-- Claim C4 (amended): when the paths file is absent, Snapshot.load
fails with a contextual error naming the paths file; it does not treat
the directory as an empty store. -/
theorem load_missing_paths_error (d : Dir) (hd : d.pathsFile = none) :
    Snapshot.load d = .error LoadErr.missingPathsFile := by
  unfold Snapshot.load
  rw [hd]

theorem load_missing_paths_error_witness :
    Dir.empty.pathsFile = none ∧
      Snapshot.load Dir.empty = .error LoadErr.missingPathsFile :=
  ⟨rfl, load_missing_paths_error Dir.empty rfl⟩

theorem unionWith_go_preserves (other : DbMap) (db : DbMap) (h : Hash) (X : DbEntry)
    (hx : List.lookup h db = some X) :
    List.lookup h (other.foldl
      (fun m kv => if (m.lookup kv.1).isSome then m else kv :: m) db) = some X := by
  induction other generalizing db with
  | nil => exact hx
  | cons kv rest ih =>
    obtain ⟨k, v⟩ := kv
    simp only [List.foldl_cons]
    by_cases hs : (db.lookup k).isSome
    · rw [if_pos hs]
      exact ih db hx
    · rw [if_neg hs]
      apply ih
      rw [lookup_cons]
      have hne : ¬h = k := by
        intro hc
        subst hc
        rw [hx] at hs
        exact hs rfl
      rw [if_neg hne]
      exact hx

/-- Claim C5: union_with never replaces an existing entry: if hash h is
present in the database with entry X, then after union_with with any
other mapping, the entry for h is still X. -/
theorem unionWith_preserves_existing (db other : DbMap) (h : Hash) (X : DbEntry)
    (hx : Database.get db h = some X) :
    Database.get (Database.unionWith db other) h = some X :=
  unionWith_go_preserves other db h X hx

theorem unionWith_preserves_existing_witness :
    Database.get [(1, DbEntry.Internal [] [2])] 1 = some (DbEntry.Internal [] [2]) ∧
      Database.get
        (Database.unionWith [(1, DbEntry.Internal [] [2])] [(1, DbEntry.External [] 0 0)]) 1 =
        some (DbEntry.Internal [] [2]) :=
  ⟨rfl, unionWith_preserves_existing [(1, DbEntry.Internal [] [2])]
    [(1, DbEntry.External [] 0 0)] 1 (DbEntry.Internal [] [2]) rfl⟩

/-- Claim C7: a read failure anywhere in the outboard sequence or the
collection sequence makes from_snapshot abort with an error; no Database
is produced. -/
theorem fromSnapshot_error_aborts {ε : Type} (s : SnapshotT ε)
    (h : (∃ e, Except.error e ∈ s.outboards) ∨ (∃ e, Except.error e ∈ s.collections)) :
    exceptIsOk (Database.fromSnapshot s) = false := by
  rcases h with ⟨e, hm⟩ | ⟨e, hm⟩
  · obtain ⟨e0, he0⟩ := collectE_error_of_mem s.outboards e hm
    simp [Database.fromSnapshot, he0, Except.mapError, Bind.bind, Except.bind, exceptIsOk]
  · obtain ⟨e0, he0⟩ := collectE_error_of_mem s.collections e hm
    rcases hco : collectE s.outboards with e1 | v <;>
      simp [Database.fromSnapshot, hco, he0, Except.mapError, Bind.bind, Except.bind,
        exceptIsOk]

theorem fromSnapshot_error_aborts_witness :
    ((∃ e, Except.error e ∈ (⟨[], [.error ()], []⟩ : SnapshotT Unit).outboards) ∨
        (∃ e, Except.error e ∈ (⟨[], [.error ()], []⟩ : SnapshotT Unit).collections)) ∧
      exceptIsOk (Database.fromSnapshot (⟨[], [.error ()], []⟩ : SnapshotT Unit)) = false :=
  ⟨Or.inl ⟨(), List.mem_cons_self _ _⟩,
   fromSnapshot_error_aborts (⟨[], [.error ()], []⟩ : SnapshotT Unit)
     (Or.inl ⟨(), List.mem_cons_self _ _⟩)⟩

/-- Claim C10: on the in-memory backend, roots returns the empty
sequence and validate completes successfully without sending any
message, for every InMemDatabase, including non-empty ones. -/
theorem inMemDatabase_roots_validate_noop (db : InMemDatabase) :
    InMemDatabase.roots db = [] ∧
      InMemDatabase.validateResult db = (.ok (), []) :=
  ⟨rfl, rfl⟩

/-- The bytes of the ASCII string hello. -/
def helloBytes : Bytes := [104, 101, 108, 108, 111]

/-- The bytes of the ASCII string world. -/
def worldBytes : Bytes := [119, 111, 114, 108, 100]

/-- Claim C9: building an InMemDatabase from the two named buffers a and
b yields the hash of each content under its name, two distinct hashes
(given that the underlying hash function separates the two buffers, the
cryptographic assumption the spec makes), a names map whose key set is
exactly the two names, and get at the hash of the hello buffer returns
that buffer; moreover the hash computed on insertion is a function of
the content alone, hence identical on every insertion of the same
content. -/
theorem inMemDatabase_scenario (bao : Bytes → Bytes × Hash)
    (hne : (bao helloBytes).2 ≠ (bao worldBytes).2) :
    (List.lookup "a" (InMemDatabase.new bao [("a", helloBytes), ("b", worldBytes)]).2 =
        some (bao helloBytes).2 ∧
      List.lookup "b" (InMemDatabase.new bao [("a", helloBytes), ("b", worldBytes)]).2 =
        some (bao worldBytes).2) ∧
    (bao helloBytes).2 ≠ (bao worldBytes).2 ∧
    (∀ s, (List.lookup s
        (InMemDatabase.new bao [("a", helloBytes), ("b", worldBytes)]).2).isSome = true ↔
        (s = "a" ∨ s = "b")) ∧
    InMemDatabase.get (InMemDatabase.new bao [("a", helloBytes), ("b", worldBytes)]).1
        (bao helloBytes).2 = some helloBytes ∧
    (∀ d1 d2 : InMemDatabase, ∀ c : Bytes,
      (InMemDatabase.insert bao d1 c).2 = (InMemDatabase.insert bao d2 c).2) := by
  have hnew : InMemDatabase.new bao [("a", helloBytes), ("b", worldBytes)] =
      (⟨[((bao worldBytes).2, ((bao worldBytes).1, worldBytes)),
          ((bao helloBytes).2, ((bao helloBytes).1, helloBytes))]⟩,
        [("b", (bao worldBytes).2), ("a", (bao helloBytes).2)]) := rfl
  refine ⟨⟨?_, ?_⟩, hne, ?_, ?_, fun d1 d2 c => rfl⟩
  · rw [hnew, lookup_cons, if_neg (by decide), lookup_cons, if_pos rfl]
  · rw [hnew, lookup_cons, if_pos rfl]
  · intro s
    rw [hnew]
    by_cases hb : s = "b"
    · simp [lookup_cons, hb]
    · by_cases ha : s = "a" <;> simp [lookup_cons, hb, ha]
  · rw [hnew]
    show (List.lookup (bao helloBytes).2 _).map _ = _
    rw [lookup_cons, if_neg hne, lookup_cons, if_pos rfl]
    rfl

/-- An abstract stand-in for the bao outboard computation, used only to
exercise the scenario on concrete bytes: an injective-enough numeric
digest of the buffer. -/
def baoW (b : Bytes) : Bytes × Hash :=
  ([], b.foldl (fun a x => a * 256 + x + 1) 0)

theorem inMemDatabase_scenario_witness :
    (baoW helloBytes).2 ≠ (baoW worldBytes).2 ∧
      InMemDatabase.get (InMemDatabase.new baoW [("a", helloBytes), ("b", worldBytes)]).1
        (baoW helloBytes).2 = some helloBytes :=
  ⟨by decide, (inMemDatabase_scenario baoW (by decide)).2.2.2.1⟩

theorem withIds_map_fst {α : Type} (l : List α) : ∀ k,
    (withIds k l).map Prod.fst = List.range' k l.length := by
  induction l with
  | nil => intro k; rfl
  | cons x xs ih => intro k; simp [withIds, List.range', ih]

theorem entryLE_isExternal_mono (a b : Hash × DbEntry) (hle : entryLE a b)
    (ha : a.2.isExternal = true) : b.2.isExternal = true := by
  rcases a with ⟨ka, ea⟩
  rcases b with ⟨kb, eb⟩
  cases ea with
  | Internal ob d => simp [DbEntry.isExternal] at ha
  | External ob p sz =>
    cases eb with
    | External ob2 p2 sz2 => rfl
    | Internal ob2 d2 =>
      exfalso
      simp only [entryLE, sortKey, lexLe4] at hle
      omega

/-- Claim C3 counterexample: in a database holding one External and one
Internal entry, the validate0 sort puts the Internal entry first, not
the External one: the sort key starts with is_external, and false
orders before true. -/
theorem validate_sort_external_first_false :
    List.map (fun kv => DbEntry.isExternal kv.2)
        [(1, DbEntry.External [] 5 3), (0, DbEntry.Internal [] [7])] = [true, false] ∧
      List.map (fun kv => DbEntry.isExternal kv.2)
        (sortEntries [(1, DbEntry.External [] 5 3), (0, DbEntry.Internal [] [7])]) =
        [false, true] := by
  constructor
  · rfl
  · rfl

/-- Claim C3 (amended): the validate0 sort is a permutation of the
snapshot copy, sorted by the key (is_external, blob_path, hash) with
false before true and none before some: Internal entries come first,
ordered by hash, followed by External entries ordered by path then
hash; ids are then assigned sequentially from 0 in this order, the id
of each entry being its position in the sorted sequence. -/
theorem validate_sort_characterization (db : DbMap) :
    (sortEntries db).Perm db ∧
    (sortEntries db).Sorted entryLE ∧
    (∀ i j : Fin (sortEntries db).length, i < j →
      ((sortEntries db).get i).2.isExternal = true →
      ((sortEntries db).get j).2.isExternal = true) ∧
    (withIds 0 (sortEntries db)).map Prod.fst = List.range (sortEntries db).length := by
  refine ⟨List.perm_insertionSort entryLE db, List.sorted_insertionSort entryLE db,
    ?_, ?_⟩
  · intro i j hij hi
    have hp := (List.pairwise_iff_get.mp (List.sorted_insertionSort entryLE db)) i j hij
    exact entryLE_isExternal_mono _ _ hp hi
  · rw [withIds_map_fst, List.range_eq_range']

theorem validate_sort_characterization_witness :
    (sortEntries [(1, DbEntry.External [] 5 3), (0, DbEntry.Internal [] [7])]).Perm
        [(1, DbEntry.External [] 5 3), (0, DbEntry.Internal [] [7])] ∧
      (withIds 0 (sortEntries [(1, DbEntry.External [] 5 3), (0, DbEntry.Internal [] [7])])).map
          Prod.fst = List.range 2 :=
  ⟨(validate_sort_characterization
      [(1, DbEntry.External [] 5 3), (0, DbEntry.Internal [] [7])]).1,
   (validate_sort_characterization
      [(1, DbEntry.External [] 5 3), (0, DbEntry.Internal [] [7])]).2.2.2⟩

instance pathHashLe.total :
    IsTotal (Hash × Nat × Option FsPath) (fun a b => a.1 ≤ b.1) :=
  ⟨fun a b => Nat.le_total a.1 b.1⟩

instance pathHashLe.trans :
    IsTrans (Hash × Nat × Option FsPath) (fun a b => a.1 ≤ b.1) :=
  ⟨fun _ _ _ hab hbc => Nat.le_trans hab hbc⟩

/-- Claim C8: persist writes every outboard file and every collection
file before writing the paths file, which is the last write, and the
paths list written is the paths sequence sorted ascending by hash (a
permutation of the original, sorted on the first component). -/
theorem persist_sorted_paths_last {ε : Type} (paths : List (Hash × Nat × Option FsPath))
    (obs cols : List (Hash × Bytes)) :
    Snapshot.persistEvents (ε := ε) ⟨paths, obs.map .ok, cols.map .ok⟩ =
        .ok (obs.map (fun hb => WriteEv.wOutboard hb.1 hb.2) ++
          cols.map (fun hb => WriteEv.wCollection hb.1 hb.2) ++
          [WriteEv.wPaths (sortPathsByHash paths)]) ∧
      (∀ ev ∈ obs.map (fun hb => WriteEv.wOutboard hb.1 hb.2) ++
          cols.map (fun hb => WriteEv.wCollection hb.1 hb.2),
        ∀ qs, ev ≠ WriteEv.wPaths qs) ∧
      (sortPathsByHash paths).Perm paths ∧
      (sortPathsByHash paths).Sorted (fun a b => a.1 ≤ b.1) := by
  refine ⟨?_, ?_, List.perm_insertionSort _ paths, List.sorted_insertionSort _ paths⟩
  · simp [Snapshot.persistEvents, collectE_map_ok, Bind.bind, Except.bind, Pure.pure,
      Except.pure]
  · intro ev hev qs
    rcases List.mem_append.mp hev with hm | hm <;>
      obtain ⟨hb, _, rfl⟩ := List.mem_map.mp hm <;> simp

theorem persist_sorted_paths_last_witness :
    Snapshot.persistEvents (ε := Unit)
        ⟨[(2, 0, none), (1, 3, some 4)], [.ok (5, [1])], [.ok (6, [2])]⟩ =
      .ok [WriteEv.wOutboard 5 [1], WriteEv.wCollection 6 [2],
        WriteEv.wPaths [(1, 3, some 4), (2, 0, none)]] := by
  have h := (persist_sorted_paths_last (ε := Unit)
    [(2, 0, none), (1, 3, some 4)] [(5, [1])] [(6, [2])]).1
  rw [show ([(5, [1])] : List (Hash × Bytes)).map Except.ok = [.ok (5, [1])] from rfl,
    show ([(6, [2])] : List (Hash × Bytes)).map Except.ok = [.ok (6, [2])] from rfl] at h
  rw [h]
  rfl

/-! ### Round trip -/

/-- The (size, optional path) component of the paths triple that
snapshot produces for one entry. -/
def pathVal : DbEntry → Nat × Option FsPath
  | .External _ p sz => (sz, some p)
  | .Internal _ d => (d.length, none)

/-- The paths list of a snapshot of db. -/
def pathsList (db : DbMap) : List (Hash × Nat × Option FsPath) :=
  db.map (fun kv => (kv.1, pathVal kv.2))

/-- The outboard list of a snapshot of db. -/
def obsList (db : DbMap) : List (Hash × Bytes) :=
  db.map (fun kv => (kv.1, kv.2.outboard))

/-- The collections list of a snapshot of db. -/
def colsList (db : DbMap) : List (Hash × Bytes) :=
  db.filterMap (fun kv => (kv.2.internalData).map (fun d => (kv.1, d)))

theorem snapshot_fields (db : DbMap) (ε : Type) :
    Database.snapshot db ε = ⟨pathsList db, (obsList db).map .ok, (colsList db).map .ok⟩ := by
  unfold Database.snapshot pathsList obsList colsList
  congr 1
  apply List.map_congr_left
  intro kv _
  cases kv.2 <;> rfl

theorem keys_map_value {β γ : Type} (f : β → γ) (l : List (Hash × β)) :
    (l.map (fun kv => (kv.1, f kv.2))).map Prod.fst = l.map Prod.fst := by
  induction l with
  | nil => rfl
  | cons kv t ih => simp [ih]

theorem keys_map_graph {β : Type} (g : Hash → β) (l : List Hash) :
    (l.map (fun h => (h, g h))).map Prod.fst = l := by
  induction l with
  | nil => rfl
  | cons h t ih => simp [ih]

theorem lookup_map_graph {β : Type} (g : Hash → β) (l : List Hash) (a : Hash) :
    List.lookup a (l.map (fun h => (h, g h))) = if a ∈ l then some (g a) else none := by
  induction l with
  | nil => simp [List.lookup]
  | cons h t ih =>
    by_cases ha : a = h
    · subst ha
      simp [lookup_cons]
    · simp only [List.map_cons, lookup_cons, if_neg ha, ih, List.mem_cons]
      by_cases hm : a ∈ t <;> simp [hm, ha]

theorem filterMap_keys_sublist {β γ : Type} (g : β → Option γ) (l : List (Hash × β)) :
    ((l.filterMap (fun kv => (g kv.2).map (fun v => (kv.1, v)))).map Prod.fst).Sublist
      (l.map Prod.fst) := by
  induction l with
  | nil => simp
  | cons kv t ih =>
    cases hg : g kv.2 with
    | none =>
      have hstep : (kv :: t).filterMap (fun kv => (g kv.2).map (fun v => (kv.1, v))) =
          t.filterMap (fun kv => (g kv.2).map (fun v => (kv.1, v))) := by
        simp [List.filterMap_cons, hg]
      rw [hstep, List.map_cons]
      exact ih.cons kv.1
    | some w =>
      have hstep : (kv :: t).filterMap (fun kv => (g kv.2).map (fun v => (kv.1, v))) =
          (kv.1, w) :: t.filterMap (fun kv => (g kv.2).map (fun v => (kv.1, v))) := by
        simp [List.filterMap_cons, hg]
      rw [hstep, List.map_cons, List.map_cons]
      exact ih.cons₂ kv.1

theorem lookup_eq_some_iff_mem {β : Type} (l : List (Hash × β))
    (hnd : (l.map Prod.fst).Nodup) (a : Hash) (b : β) :
    List.lookup a l = some b ↔ (a, b) ∈ l := by
  induction l with
  | nil => simp [List.lookup]
  | cons kv t ih =>
    obtain ⟨k, v⟩ := kv
    simp only [List.map_cons, List.nodup_cons] at hnd
    obtain ⟨hk, hnd⟩ := hnd
    by_cases ha : a = k
    · subst ha
      rw [lookup_cons, if_pos rfl]
      constructor
      · intro hb
        have hv : v = b := Option.some.inj hb
        subst hv
        exact List.mem_cons_self _ _
      · intro hb
        rcases List.mem_cons.mp hb with hb | hb
        · injection hb with h1 h2
          subst h2
          rfl
        · exact absurd (List.mem_map.mpr ⟨(a, b), hb, rfl⟩) hk
    · rw [lookup_cons, if_neg ha, ih hnd]
      simp only [List.mem_cons]
      constructor
      · exact Or.inr
      · rintro (hb | hb)
        · exact absurd (congrArg Prod.fst hb) ha
        · exact hb

theorem lookup_perm_nodup {β : Type} (l l2 : List (Hash × β)) (hp : l.Perm l2)
    (hnd : (l.map Prod.fst).Nodup) (a : Hash) :
    List.lookup a l = List.lookup a l2 := by
  have hnd2 : (l2.map Prod.fst).Nodup := ((hp.map Prod.fst).nodup_iff).mp hnd
  cases hl : List.lookup a l with
  | some b =>
    have hm : (a, b) ∈ l := (lookup_eq_some_iff_mem l hnd a b).mp hl
    exact ((lookup_eq_some_iff_mem l2 hnd2 a b).mpr (hp.mem_iff.mp hm)).symm
  | none =>
    have hm : a ∉ l.map Prod.fst := (lookup_eq_none_iff l a).mp hl
    have hm2 : a ∉ l2.map Prod.fst := fun hc => hm ((hp.map Prod.fst).mem_iff.mpr hc)
    exact ((lookup_eq_none_iff l2 a).mpr hm2).symm

theorem hashSet_mem (ps : List (Hash × Nat × Option FsPath)) (a : Hash) :
    a ∈ hashSet ps ↔ a ∈ ps.map Prod.fst := by
  unfold hashSet
  rw [List.mem_dedup]
  exact (List.perm_insertionSort _ _).mem_iff

theorem hashSet_nodup (ps : List (Hash × Nat × Option FsPath)) : (hashSet ps).Nodup :=
  List.nodup_dedup _

theorem foldl_applyEv_outboards (l : List (Hash × Bytes)) (d : Dir) :
    (l.map (fun hb => WriteEv.wOutboard hb.1 hb.2)).foldl Dir.applyEv d =
      ⟨l.foldl (fun fs hb => fsWrite fs hb.1 hb.2) d.outboards, d.collections, d.pathsFile⟩ := by
  induction l generalizing d with
  | nil => rfl
  | cons hb t ih => simp [Dir.applyEv, ih]

theorem foldl_applyEv_collections (l : List (Hash × Bytes)) (d : Dir) :
    (l.map (fun hb => WriteEv.wCollection hb.1 hb.2)).foldl Dir.applyEv d =
      ⟨d.outboards, l.foldl (fun fs hb => fsWrite fs hb.1 hb.2) d.collections, d.pathsFile⟩ := by
  induction l generalizing d with
  | nil => rfl
  | cons hb t ih => simp [Dir.applyEv, ih]

theorem persist_snapshot_dir (db : DbMap) :
    Snapshot.persist (Database.snapshot db Empty) Dir.empty =
      .ok ⟨collectMap (obsList db), collectMap (colsList db),
        some (sortPathsByHash (pathsList db))⟩ := by
  rw [snapshot_fields]
  have hev : Snapshot.persistEvents (ε := Empty)
      ⟨pathsList db, (obsList db).map .ok, (colsList db).map .ok⟩ =
      .ok ((obsList db).map (fun hb => WriteEv.wOutboard hb.1 hb.2) ++
        (colsList db).map (fun hb => WriteEv.wCollection hb.1 hb.2) ++
        [WriteEv.wPaths (sortPathsByHash (pathsList db))]) := by
    simp [Snapshot.persistEvents, collectE_map_ok, Bind.bind, Except.bind, Pure.pure,
      Except.pure]
  unfold Snapshot.persist
  rw [hev]
  simp only [Except.map, List.foldl_append, foldl_applyEv_outboards,
    foldl_applyEv_collections]
  rfl

/-- The outboard list rebuilt by load: for each hash of the hash set,
the content of its outboard file. -/
def obs2 (db : DbMap) : List (Hash × Bytes) :=
  (hashSet (sortPathsByHash (pathsList db))).map
    (fun h => (h, (List.lookup h (obsList db)).getD []))

theorem pathsList_keys (db : DbMap) :
    (pathsList db).map Prod.fst = db.map Prod.fst := keys_map_value _ db

theorem obsList_keys (db : DbMap) :
    (obsList db).map Prod.fst = db.map Prod.fst := keys_map_value _ db

theorem sorted_pathsList_keys_mem (db : DbMap) (a : Hash) :
    a ∈ hashSet (sortPathsByHash (pathsList db)) ↔ a ∈ db.map Prod.fst := by
  rw [hashSet_mem]
  unfold sortPathsByHash
  rw [((List.perm_insertionSort _ (pathsList db)).map Prod.fst).mem_iff, pathsList_keys]

theorem map_lookup_ok (hl : List Hash) (fs : List (Hash × Bytes))
    (hs : ∀ h ∈ hl, (List.lookup h fs).isSome = true) :
    hl.map (fun h => match List.lookup h fs with
      | some b => Except.ok (ε := IoErr) (h, b)
      | none => .error (.fileNotFound h)) =
      (hl.map (fun h => (h, (List.lookup h fs).getD []))).map .ok := by
  induction hl with
  | nil => rfl
  | cons h t ih =>
    have hh := hs h (List.mem_cons_self _ _)
    cases hlk : List.lookup h fs with
    | none => rw [hlk] at hh; cases hh
    | some b =>
      simp only [List.map_cons, hlk]
      rw [ih (fun x hx => hs x (List.mem_cons_of_mem _ hx))]
      rfl

theorem load_dir (db : DbMap) :
    Snapshot.load ⟨obsList db, colsList db, some (sortPathsByHash (pathsList db))⟩ =
      .ok ⟨sortPathsByHash (pathsList db), (obs2 db).map .ok, (colsList db).map .ok⟩ := by
  unfold Snapshot.load
  simp only []
  congr 1
  refine SnapshotT.mk.injEq .. ▸ ?_
  refine ⟨rfl, ?_, ?_⟩
  · unfold obs2
    refine map_lookup_ok _ _ ?_
    intro h hh
    rw [lookup_isSome_iff, obsList_keys]
    exact (sorted_pathsList_keys_mem db h).mp hh
  · rw [List.filter_eq_self.mpr]
    intro hb hm
    rw [decide_eq_true_eq, sorted_pathsList_keys_mem]
    have hk : hb.1 ∈ (colsList db).map Prod.fst := List.mem_map.mpr ⟨hb, hm, rfl⟩
    have hsub := filterMap_keys_sublist DbEntry.internalData db
    exact hsub.subset hk

theorem obs2_keys (db : DbMap) :
    (obs2 db).map Prod.fst = hashSet (sortPathsByHash (pathsList db)) :=
  keys_map_graph _ _

theorem colsList_keys_nodup (db : DbMap) (hnd : (db.map Prod.fst).Nodup) :
    ((colsList db).map Prod.fst).Nodup :=
  (filterMap_keys_sublist DbEntry.internalData db).nodup hnd

theorem lookup_colsList (db : DbMap) (hnd : (db.map Prod.fst).Nodup) (a : Hash) :
    List.lookup a (colsList db) = (List.lookup a db).bind DbEntry.internalData :=
  lookup_filterMap_nodup DbEntry.internalData db hnd a

theorem lookup_obsList (db : DbMap) (a : Hash) :
    List.lookup a (obsList db) = (List.lookup a db).map DbEntry.outboard :=
  lookup_map_value DbEntry.outboard db a

theorem lookup_obs2 (db : DbMap) (a : Hash) :
    List.lookup a (obs2 db) =
      if a ∈ db.map Prod.fst then
        some (((List.lookup a db).map DbEntry.outboard).getD []) else none := by
  unfold obs2
  rw [lookup_map_graph]
  by_cases hm : a ∈ db.map Prod.fst
  · rw [if_pos ((sorted_pathsList_keys_mem db a).mpr hm), if_pos hm, lookup_obsList]
  · rw [if_neg (fun hc => hm ((sorted_pathsList_keys_mem db a).mp hc)), if_neg hm]

theorem sortPaths_perm (ps : List (Hash × Nat × Option FsPath)) :
    (sortPathsByHash ps).Perm ps :=
  List.perm_insertionSort _ ps

/-- Claim C1: for every database with distinct hashes, snapshotting,
persisting to a fresh directory, loading that directory and rebuilding
with from_snapshot succeeds and yields a database whose inner mapping is
identical to the original: every hash maps to an entry with the same
bytes, outboard and External or Internal classification. -/
theorem roundTrip_preserves_database (db : DbMap) (hnd : (db.map Prod.fst).Nodup) :
    exceptIsOk (Database.roundTrip db) = true ∧
      ∀ a, Database.roundTripLookup db a = List.lookup a db := by
  have hndP1 : ((pathsList db).map Prod.fst).Nodup := by
    rw [pathsList_keys]; exact hnd
  have hndP2 : ((sortPathsByHash (pathsList db)).map Prod.fst).Nodup :=
    (((sortPaths_perm (pathsList db)).map Prod.fst).nodup_iff).mpr hndP1
  have hndO2 : ((obs2 db).map Prod.fst).Nodup := by
    rw [obs2_keys]; exact hashSet_nodup _
  have hndC2 : ((colsList db).map Prod.fst).Nodup := colsList_keys_nodup db hnd
  have hpersist := persist_snapshot_dir db
  rw [collectMap_nodup (obsList db) (by rw [obsList_keys]; exact hnd),
    collectMap_nodup (colsList db) hndC2] at hpersist
  have hload := load_dir db
  have hfs := fromSnapshot_ok (ε := IoErr) (sortPathsByHash (pathsList db)) (obs2 db)
    (colsList db)
  have hRT : Database.roundTrip db =
      .ok (reconcile (sortPathsByHash (pathsList db)) (obs2 db) (colsList db)) := by
    unfold Database.roundTrip
    rw [hpersist]
    simp only [Except.mapError, Bind.bind, Except.bind]
    rw [hload]
    simp only [Except.mapError]
    rw [hfs]
  have hpaths2 : ∀ a, List.lookup a (sortPathsByHash (pathsList db)) =
      (List.lookup a db).map pathVal := by
    intro a
    rw [← lookup_perm_nodup (pathsList db) (sortPathsByHash (pathsList db))
      (sortPaths_perm (pathsList db)).symm hndP1 a]
    exact lookup_map_value pathVal db a
  refine ⟨by rw [hRT]; rfl, ?_⟩
  intro a
  unfold Database.roundTripLookup
  rw [hRT]
  show List.lookup a (reconcile (sortPathsByHash (pathsList db)) (obs2 db) (colsList db)) =
    List.lookup a db
  rw [reconcile_lookup _ _ _ hndP2 hndO2 hndC2 a]
  cases hdb : List.lookup a db with
  | none =>
    have hco : List.lookup a (colsList db) = none := by
      rw [lookup_colsList db hnd a, hdb]; rfl
    rw [hco, hpaths2 a, hdb]
    rfl
  | some e =>
    have hmem : a ∈ db.map Prod.fst := by
      rw [← lookup_isSome_iff, hdb]; rfl
    have hob : List.lookup a (obs2 db) = some e.outboard := by
      rw [lookup_obs2, if_pos hmem, hdb]
      rfl
    cases e with
    | Internal ob d =>
      have hco : List.lookup a (colsList db) = some d := by
        rw [lookup_colsList db hnd a, hdb]; rfl
      rw [hco, hob]
      rfl
    | External ob p sz =>
      have hco : List.lookup a (colsList db) = none := by
        rw [lookup_colsList db hnd a, hdb]; rfl
      rw [hco, hpaths2 a, hdb, hob]
      rfl

theorem roundTrip_preserves_database_witness :
    (([(3, DbEntry.External [5] 9 2), (4, DbEntry.Internal [6] [7, 8])].map
        (Prod.fst (β := DbEntry))).Nodup) ∧
      Database.roundTripLookup [(3, DbEntry.External [5] 9 2), (4, DbEntry.Internal [6] [7, 8])] 4 =
        List.lookup 4 [(3, DbEntry.External [5] 9 2), (4, DbEntry.Internal [6] [7, 8])] :=
  ⟨by decide,
   (roundTrip_preserves_database
      [(3, DbEntry.External [5] 9 2), (4, DbEntry.Internal [6] [7, 8])] (by decide)).2 4⟩

/-! ### Interleaving lemmas for the validation trace -/

theorem flatten_set_perm {α : Type} (qs : List (List α)) (i : Nat) (x : α)
    (rest : List α) (hq : qs[i]? = some (x :: rest)) :
    qs.flatten.Perm (x :: (qs.set i rest).flatten) := by
  induction qs generalizing i with
  | nil => cases hq
  | cons q qt ih =>
    cases i with
    | zero =>
      obtain rfl : q = x :: rest := by simpa using hq
      simp [List.flatten_cons]
    | succ i =>
      have hq2 : qt[i]? = some (x :: rest) := by
        simpa using hq
      have ihp := ih i hq2
      have h1 : (q :: qt).flatten = q ++ qt.flatten := by simp [List.flatten_cons]
      have h2 : (q ++ qt.flatten).Perm (q ++ (x :: (qt.set i rest).flatten)) :=
        ihp.append_left q
      have h3 : (q ++ (x :: (qt.set i rest).flatten)).Perm
          (x :: (q ++ (qt.set i rest).flatten)) := List.perm_middle
      have h4 : ((q :: qt).set (i + 1) rest).flatten = q ++ (qt.set i rest).flatten := by
        simp [List.flatten_cons]
      rw [h1, h4]
      exact h2.trans h3

theorem runSched_perm {α : Type} (sched : List Nat) (qs : List (List α)) :
    (runSched sched qs).Perm qs.flatten := by
  induction sched generalizing qs with
  | nil => exact List.Perm.refl _
  | cons i sched ih =>
    rcases hq : qs[i]? with _ | q
    · have hrw : runSched (i :: sched) qs = runSched sched qs := by
        simp [runSched, hq]
      rw [hrw]
      exact ih qs
    · rcases q with _ | ⟨x, rest⟩
      · have hrw : runSched (i :: sched) qs = runSched sched qs := by
          simp [runSched, hq]
        rw [hrw]
        exact ih qs
      · have hrw : runSched (i :: sched) qs = x :: runSched sched (qs.set i rest) := by
          simp [runSched, hq]
        rw [hrw]
        exact ((ih (qs.set i rest)).cons x).trans (flatten_set_perm qs i x rest hq).symm

/-- Every element satisfying Q inside t is preceded by an element
satisfying P, unless the escape flag holds. -/
def GuardedOut {α : Type} (P Q : α → Prop) (flag : Prop) (t : List α) : Prop :=
  ∀ pre x post, t = pre ++ x :: post → Q x → flag ∨ ∃ y ∈ pre, P y

theorem guardedOut_mono {α : Type} {P Q : α → Prop} {flag flag2 : Prop} {t : List α}
    (himp : flag → flag2) (hg : GuardedOut P Q flag t) : GuardedOut P Q flag2 t := by
  intro pre x post heq hx
  rcases hg pre x post heq hx with hf | hy
  · exact Or.inl (himp hf)
  · exact Or.inr hy

theorem guardedOut_cons_shift {α : Type} {P Q : α → Prop} {flag : Prop} {a : α}
    {l : List α} (hg : GuardedOut P Q flag (a :: l)) :
    GuardedOut P Q (flag ∨ P a) l := by
  intro pre x post heq hx
  rcases hg (a :: pre) x post (by rw [heq]; rfl) hx with hf | ⟨y, hy, hp⟩
  · exact Or.inl (Or.inl hf)
  · rcases List.mem_cons.mp hy with rfl | hy
    · exact Or.inl (Or.inr hp)
    · exact Or.inr ⟨y, hy, hp⟩

theorem guardedOut_head {α : Type} {P Q : α → Prop} {flag : Prop} {a : α} {l : List α}
    (hg : GuardedOut P Q flag (a :: l)) (ha : Q a) : flag := by
  rcases hg [] a l (by simp) ha with hf | ⟨y, hy, _⟩
  · exact hf
  · cases hy

theorem guardedOut_append {α : Type} {P Q : α → Prop} (s t : List α) :
    ∀ flag : Prop, GuardedOut P Q flag s → GuardedOut P Q flag t →
      GuardedOut P Q flag (s ++ t) := by
  induction s with
  | nil =>
    intro flag _ ht
    simpa using ht
  | cons a s ih =>
    intro flag hs ht
    intro pre x post heq hx
    cases pre with
    | nil =>
      simp only [List.nil_append, List.cons_append] at heq
      injection heq with h1 h2
      subst h1
      exact Or.inl (guardedOut_head hs hx)
    | cons a2 pre2 =>
      simp only [List.cons_append] at heq
      injection heq with h1 h2
      subst h1
      have hres := ih (flag ∨ P a) (guardedOut_cons_shift hs)
        (guardedOut_mono Or.inl ht) pre2 x post h2 hx
      rcases hres with (hf | hf) | ⟨y, hy, hp⟩
      · exact Or.inl hf
      · exact Or.inr ⟨a, List.mem_cons_self _ _, hf⟩
      · exact Or.inr ⟨y, List.mem_cons_of_mem _ hy, hp⟩

theorem guardedOut_flatten {α : Type} {P Q : α → Prop} (qs : List (List α)) :
    ∀ flag : Prop, (∀ q ∈ qs, GuardedOut P Q flag q) →
      GuardedOut P Q flag qs.flatten := by
  induction qs with
  | nil =>
    intro flag _
    intro pre x post heq hx
    rcases pre with _ | ⟨a, pre⟩ <;> cases heq
  | cons q qt ih =>
    intro flag hq
    rw [List.flatten_cons]
    exact guardedOut_append q qt.flatten flag (hq q (List.mem_cons_self _ _))
      (ih flag (fun q2 hq2 => hq q2 (List.mem_cons_of_mem _ hq2)))

theorem guardedOut_runSched {α : Type} {P Q : α → Prop} (sched : List Nat) :
    ∀ (flag : Prop) (qs : List (List α)), (∀ q ∈ qs, GuardedOut P Q flag q) →
      GuardedOut P Q flag (runSched sched qs) := by
  induction sched with
  | nil =>
    intro flag qs hq
    exact guardedOut_flatten qs flag hq
  | cons i sched ih =>
    intro flag qs hq
    rcases hget : qs[i]? with _ | q
    · have hrw : runSched (i :: sched) qs = runSched sched qs := by simp [runSched, hget]
      rw [hrw]
      exact ih flag qs hq
    · rcases q with _ | ⟨x, rest⟩
      · have hrw : runSched (i :: sched) qs = runSched sched qs := by
          simp [runSched, hget]
        rw [hrw]
        exact ih flag qs hq
      · have hrw : runSched (i :: sched) qs = x :: runSched sched (qs.set i rest) := by
          simp [runSched, hget]
        rw [hrw]
        have hmem : (x :: rest) ∈ qs := by
          have := List.getElem?_eq_some_iff.mp hget
          obtain ⟨hlen, hval⟩ := this
          exact hval ▸ List.getElem_mem hlen
        have hgx : GuardedOut P Q flag (x :: rest) := hq _ hmem
        intro pre y post heq hy
        cases pre with
        | nil =>
          injection heq with h1 h2
          subst h1
          exact Or.inl (guardedOut_head hgx hy)
        | cons x2 pre2 =>
          injection heq with h1 h2
          subst h1
          have hset : ∀ q2 ∈ qs.set i rest, GuardedOut P Q (flag ∨ P x) q2 := by
            intro q2 hq2
            rcases List.mem_or_eq_of_mem_set hq2 with hin | rfl
            · exact guardedOut_mono Or.inl (hq q2 hin)
            · exact guardedOut_cons_shift hgx
          have hres := ih (flag ∨ P x) (qs.set i rest) hset pre2 y post h2 hy
          rcases hres with (hf | hf) | ⟨z, hz, hp⟩
          · exact Or.inl hf
          · exact Or.inr ⟨x, List.mem_cons_self _ _, hf⟩
          · exact Or.inr ⟨z, List.mem_cons_of_mem _ hz, hp⟩

theorem sortEntries_length (db : DbMap) : (sortEntries db).length = db.length :=
  (List.perm_insertionSort entryLE db).length_eq

theorem countP_flatten {α : Type} (p : α → Bool) (qs : List (List α)) :
    qs.flatten.countP p = (qs.map (List.countP p)).sum := by
  induction qs with
  | nil => rfl
  | cons q qt ih => simp [List.flatten_cons, List.countP_append, ih]

theorem mem_entryQueue_not_starting (progs : Nat → List Nat) (errs : Nat → Option String)
    (pr : Nat × (Hash × DbEntry)) (m : Msg) (hm : m ∈ entryQueue progs errs pr) :
    Msg.isStarting m = false := by
  simp only [entryQueue, List.mem_cons, List.mem_append, List.mem_map,
    List.mem_singleton] at hm
  rcases hm with rfl | ⟨⟨off, _, rfl⟩ | (rfl | hnil)⟩
  · rfl
  · rfl
  · rfl
  · cases hnil

theorem countP_done_entryQueue (progs : Nat → List Nat) (errs : Nat → Option String)
    (id j : Nat) (he : Hash × DbEntry) :
    List.countP (Msg.isDoneFor id) (entryQueue progs errs (j, he)) =
      if j = id then 1 else 0 := by
  unfold entryQueue
  rw [List.countP_cons, List.countP_append, List.countP_map]
  have h1 : Msg.isDoneFor id (Msg.entry j he.1 he.2.blobPath he.2.entrySize) = false := rfl
  have h2 : List.countP (Msg.isDoneFor id ∘ Msg.progress j) (progs j) = 0 := by
    rw [List.countP_eq_zero]
    intro a _
    simp [Msg.isDoneFor, Function.comp]
  rw [h1, h2]
  by_cases hj : j = id
  · subst hj
    simp [List.countP_cons, Msg.isDoneFor]
  · have h3 : Msg.isDoneFor id (Msg.done j (errs j)) = false := by
      simp [Msg.isDoneFor, hj]
    simp [List.countP_cons, h3, hj]

theorem sum_done_counts (progs : Nat → List Nat) (errs : Nat → Option String) (id : Nat) :
    ∀ (k : Nat) (es : List (Hash × DbEntry)),
      (((withIds k es).map (entryQueue progs errs)).map (List.countP (Msg.isDoneFor id))).sum =
        if k ≤ id ∧ id < k + es.length then 1 else 0 := by
  intro k es
  induction es generalizing k with
  | nil =>
    simp only [withIds, List.map_nil, List.sum_nil, List.length_nil]
    split_ifs with h
    · omega
    · rfl
  | cons x es ih =>
    simp only [withIds, List.map_cons, List.sum_cons]
    rw [countP_done_entryQueue, ih (k + 1)]
    simp only [List.length_cons]
    split_ifs <;> omega

theorem entryQueue_guarded (progs : Nat → List Nat) (errs : Nat → Option String)
    (id j : Nat) (he : Hash × DbEntry) :
    GuardedOut (fun m => Msg.isEntryFor id m = true)
      (fun m => Msg.isProgressFor id m = true ∨ Msg.isDoneFor id m = true)
      False (entryQueue progs errs (j, he)) := by
  intro pre x post heq hQ
  have hx : x ∈ entryQueue progs errs (j, he) := by
    rw [heq]
    exact List.mem_append_right _ (List.mem_cons_self _ _)
  have hid : j = id := by
    simp only [entryQueue, List.mem_cons, List.mem_append, List.mem_map,
      List.mem_singleton] at hx
    rcases hx with rfl | ⟨⟨off, _, rfl⟩ | (rfl | hnil)⟩
    · rcases hQ with hQ | hQ <;> simp [Msg.isProgressFor, Msg.isDoneFor] at hQ
    · rcases hQ with hQ | hQ
      · simpa [Msg.isProgressFor] using hQ
      · simp [Msg.isDoneFor] at hQ
    · rcases hQ with hQ | hQ
      · simp [Msg.isProgressFor] at hQ
      · simpa [Msg.isDoneFor] using hQ
    · cases hnil
  subst hid
  unfold entryQueue at heq
  cases pre with
  | nil =>
    injection heq with h1 h2
    rcases hQ with hQ | hQ <;> rw [← h1] at hQ <;>
      simp [Msg.isProgressFor, Msg.isDoneFor] at hQ
  | cons m0 pre2 =>
    injection heq with h1 h2
    right
    refine ⟨m0, List.mem_cons_self _ _, ?_⟩
    rw [← h1]
    simp [Msg.isEntryFor]

/-- Claim C6: in every validation sweep over a database with n entries
that runs to completion, under any schedule of the bounded-concurrency
workers and any delivered progress prefixes: a single Starting message
with total n heads the trace before any other message; every Progress
or Done message with a given id is preceded by the Entry message with
that id; and each id below n receives exactly one Done message while no
other id receives any. -/
theorem validate_trace_properties (db : DbMap) (progs : Nat → List Nat)
    (errs : Nat → Option String) (sched : List Nat) :
    (validateTrace db progs errs sched).head? = some (Msg.starting db.length) ∧
      (validateTrace db progs errs sched).countP Msg.isStarting = 1 ∧
      (∀ id, (validateTrace db progs errs sched).countP (Msg.isDoneFor id) =
        if id < db.length then 1 else 0) ∧
      (∀ id pre m post, validateTrace db progs errs sched = pre ++ m :: post →
        (Msg.isProgressFor id m = true ∨ Msg.isDoneFor id m = true) →
        ∃ m2 ∈ pre, Msg.isEntryFor id m2 = true) := by
  have hperm := runSched_perm sched (validateQueues db progs errs)
  refine ⟨?_, ?_, ?_, ?_⟩
  · unfold validateTrace
    rw [sortEntries_length]
    rfl
  · unfold validateTrace
    rw [List.countP_cons]
    have hz : (runSched sched (validateQueues db progs errs)).countP Msg.isStarting = 0 := by
      rw [hperm.countP_eq]
      rw [List.countP_eq_zero]
      intro m hm
      rcases List.mem_flatten.mp hm with ⟨q, hq, hmq⟩
      rcases List.mem_map.mp hq with ⟨pr, _, rfl⟩
      simp [mem_entryQueue_not_starting progs errs pr m hmq]
    rw [hz]
    rfl
  · intro id
    unfold validateTrace
    rw [List.countP_cons]
    have hc : Msg.isDoneFor id (Msg.starting (sortEntries db).length) = false := rfl
    rw [hc, hperm.countP_eq, countP_flatten]
    unfold validateQueues
    rw [List.map_map]
    have hsum : ((withIds 0 (sortEntries db)).map
        (List.countP (Msg.isDoneFor id) ∘ entryQueue progs errs)).sum =
        (((withIds 0 (sortEntries db)).map (entryQueue progs errs)).map
          (List.countP (Msg.isDoneFor id))).sum := by
      rw [List.map_map]
    rw [hsum, sum_done_counts progs errs id 0 (sortEntries db), sortEntries_length]
    by_cases hlt : id < List.length db
    · rw [if_pos hlt,
        if_pos (⟨Nat.zero_le id, by omega⟩ : 0 ≤ id ∧ id < 0 + List.length db)]
      rfl
    · rw [if_neg hlt, if_neg (by omega : ¬(0 ≤ id ∧ id < 0 + List.length db))]
      rfl
  · intro id pre m post heq hQ
    unfold validateTrace at heq
    cases pre with
    | nil =>
      injection heq with h1 h2
      rcases hQ with hQ | hQ <;> rw [← h1] at hQ <;>
        simp [Msg.isProgressFor, Msg.isDoneFor] at hQ
    | cons s0 pre2 =>
      injection heq with h1 h2
      have hqg : ∀ q ∈ validateQueues db progs errs,
          GuardedOut (fun m2 => Msg.isEntryFor id m2 = true)
            (fun m2 => Msg.isProgressFor id m2 = true ∨ Msg.isDoneFor id m2 = true)
            False q := by
        intro q hq
        rcases List.mem_map.mp hq with ⟨pr, _, rfl⟩
        rcases pr with ⟨j, he⟩
        exact entryQueue_guarded progs errs id j he
      have hguard := guardedOut_runSched sched False (validateQueues db progs errs) hqg
      rcases hguard pre2 m post h2 hQ with hf | ⟨y, hy, hp⟩
      · cases hf
      · exact ⟨y, List.mem_cons_of_mem _ hy, hp⟩

/-- No progress offsets delivered, for concrete runs. -/
def noProgs : Nat → List Nat := fun _ => []

/-- No validation errors, for concrete runs. -/
def noErrs : Nat → Option String := fun _ => none

theorem validate_trace_properties_witness :
    List.countP (Msg.isDoneFor 0)
        (validateTrace [(5, DbEntry.Internal [1] [2])] noProgs noErrs []) = 1 := by
  have h := (validate_trace_properties [(5, DbEntry.Internal [1] [2])] noProgs noErrs []).2.2.1 0
  simpa using h
